import Mathlib

/-!
# Verification of the Mailbox Relay (src/agent-bridge.py)

Shallow embedding of the file-backed message relay: `send_message` appends a
JSON record to a line-oriented log, `get_new_messages` scans the log, extracts
the records matching a (recipient, session) pair, rewrites the log with the
remainder, and returns the last `limit` matches.

The log is modelled as a list of lines. A line is either a parseable JSON
object (modelled structurally, since json.dumps/json.loads round-trips every
string field byte-for-byte), a whitespace-only line, or a non-blank
unparseable line kept verbatim as raw text. JSON object lines carry each
field as an `Option String` because records injected into the log file may
lack fields that `send_message` always writes.
-/

/-- A parseable JSON object line of the log. Fields mirror the dict built in
`send_message` (agent-bridge.py lines 49–55); every field is optional because
a line injected into the log may omit any of them. `msg.get(k)` on a missing
key yields `none`; `msg[k]` on a missing key raises `KeyError`. -/
structure Msg where
  timestamp : Option String
  «from» : Option String
  «to» : Option String
  session : Option String
  content : Option String
deriving DecidableEq, Repr

/-- One line of `.agent-comm/messages.jsonl`: a parseable JSON object, a
whitespace-only line, or a non-blank line that fails to parse (kept with its
raw text so that writing it back verbatim is observable). -/
inductive Line where
  | record : Msg → Line
  | blank : Line
  | junk : String → Line
deriving DecidableEq, Repr

/-- The valid-recipient test of agent-bridge.py lines 46 and 79:
`x in ("trae", "kilo", "grok")`. -/
def validAgent (x : String) : Bool :=
  x == "trae" || x == "kilo" || x == "grok"

/-- Result of `send_message`: either the error string of line 47
("ERROR: to must be ...") or the confirmation string of line 60
("Message sent to {to} (session: {session})"), modelled structurally with the
recipient and session the confirmation text mentions. -/
inductive SendResult where
  | error : SendResult
  | sent : String → String → SendResult
deriving DecidableEq, Repr

/-- The record `send_message` serializes (agent-bridge.py lines 49–55):
all five fields present, `from` fixed to "other". The timestamp
(`datetime.now().isoformat()`) is an input supplied by the environment. -/
def sentRec («to» content session timestamp : String) : Msg :=
  ⟨some timestamp, some "other", some «to», some session, some content⟩

/-- `send_message(to, content, session)` (agent-bridge.py lines 33–60), acting
on a log state: rejects invalid recipients without touching the log, otherwise
appends one serialized record line. Returns the tool result and the new log. -/
def send_message («to» content session timestamp : String) (log : List Line) :
    SendResult × List Line :=
  if validAgent «to» then
    (SendResult.sent «to» session, log ++ [Line.record (sentRec «to» content session timestamp)])
  else
    (SendResult.error, log)

/-- One entry of the list `get_new_messages` returns (agent-bridge.py lines
95–101): the dict with keys `from` (always "the-other-agent"), `content` and
`timestamp` copied from the matched record. -/
structure OutMsg where
  sender : String
  content : String
  timestamp : String
deriving DecidableEq, Repr

/-- A Python exception escaping `get_new_messages`: `msg["content"]` or
`msg["timestamp"]` raises `KeyError` when the key is absent from a record
whose `to` and `session` match the call; only `json.JSONDecodeError` is
caught (agent-bridge.py lines 104–105). -/
inductive RecvErr where
  | keyError : String → RecvErr
deriving DecidableEq, Repr

/-- The scan loop of `get_new_messages` (agent-bridge.py lines 89–105):
whitespace-only lines are skipped, unparseable lines are appended verbatim to
`new_lines`, records matching (`for_agent`, `session`) are projected into the
result list (raising `KeyError` if `content` or `timestamp` is missing — the
dict literal evaluates `msg["content"]` first), every other record line is
appended to `new_lines`. -/
def scan (for_agent session : String) :
    List Line → List OutMsg → List Line → Except RecvErr (List OutMsg × List Line)
  | [], messages, new_lines => Except.ok (messages, new_lines)
  | Line.blank :: rest, messages, new_lines =>
      scan for_agent session rest messages new_lines
  | Line.junk j :: rest, messages, new_lines =>
      scan for_agent session rest messages (new_lines ++ [Line.junk j])
  | Line.record m :: rest, messages, new_lines =>
      if m.«to» = some for_agent ∧ m.session = some session then
        match m.content, m.timestamp with
        | some c, some t =>
            scan for_agent session rest (messages ++ [⟨"the-other-agent", c, t⟩]) new_lines
        | none, _ => Except.error (RecvErr.keyError "content")
        | some _, none => Except.error (RecvErr.keyError "timestamp")
      else scan for_agent session rest messages (new_lines ++ [Line.record m])

/-- Python `xs[-limit:]` for an `int` limit (agent-bridge.py line 111).
For `limit > 0` this is the suffix of the last `limit` elements (the start
index `-limit` clamps to 0 when it underruns); for `limit = 0` the slice
`xs[0:]` is the whole list; for `limit < 0` it is `xs[(-limit):]`. -/
def pySliceLast {α : Type} (xs : List α) (limit : Int) : List α :=
  if 0 < limit then xs.drop (xs.length - limit.toNat)
  else xs.drop (-limit).toNat

/-- `get_new_messages(for_agent, session, limit)` (agent-bridge.py lines
63–111), acting on a log state. An invalid agent returns `[]` without touching
the log (lines 79–80). Otherwise the log is scanned, rewritten to the
collected `new_lines` (lines 107–109), and the call returns
`messages[-limit:] if messages else []` (line 111). A `KeyError` escaping the
scan aborts the call before the rewrite, leaving the log unchanged. -/
def get_new_messages (for_agent session : String) (limit : Int) (log : List Line) :
    Except RecvErr (List OutMsg × List Line) :=
  if validAgent for_agent then
    match scan for_agent session log [] [] with
    | Except.ok (messages, new_lines) =>
        Except.ok ((if messages.isEmpty then [] else pySliceLast messages limit), new_lines)
    | Except.error e => Except.error e
  else Except.ok ([], log)

/-- The records of a log whose `to` and `session` match the given pair, in
log order — exactly the lines the scan turns into result entries. -/
def matchRecs (for_agent session : String) (log : List Line) : List Msg :=
  log.filterMap fun l =>
    match l with
    | Line.record m =>
        if m.«to» = some for_agent ∧ m.session = some session then some m else none
    | _ => none

/-- Whether a line is written back to the log by a scan for the given pair:
junk lines always, record lines iff they do not match; blank lines never. -/
def keptLine (for_agent session : String) : Line → Bool
  | Line.blank => false
  | Line.junk _ => true
  | Line.record m =>
      ¬(m.«to» = some for_agent ∧ m.session = some session)

/-- The result entry built from a matched record (agent-bridge.py lines
95–101). The defaults are never reached on records whose `content` and
`timestamp` are present. -/
def projRec (m : Msg) : OutMsg :=
  ⟨"the-other-agent", m.content.getD "", m.timestamp.getD ""⟩

/-- A record can be projected without a `KeyError`: both extracted fields are
present. -/
def goodRec (m : Msg) : Bool :=
  m.content.isSome && m.timestamp.isSome

/-- The non-blank unparseable lines of a log, with their raw text, in order. -/
def junkLines (log : List Line) : List Line :=
  log.filter fun l =>
    match l with
    | Line.junk _ => true
    | _ => false

/-- All records of the log matching the given pair can be projected without a
`KeyError`. Always true of records written by `send_message`. -/
def goodFor (for_agent session : String) (log : List Line) : Bool :=
  (matchRecs for_agent session log).all goodRec

/-! ## Ghost-tagged trace semantics

To reason about delivery across a whole run, each appended record line is
tagged with a ghost sequence number. Tags are auxiliary state only: they are
carried alongside the lines and never inspected by the operations, so the
tagged semantics mirrors `send_message` / `get_new_messages` line for line. -/

/-- A log line together with its ghost tag (its append sequence number). -/
structure GLine where
  tag : Nat
  line : Line
deriving DecidableEq, Repr

/-- State of a run: the next fresh tag and the tagged log. -/
structure GState where
  n : Nat
  glog : List GLine
deriving DecidableEq, Repr

/-- One invocation of the tool surface: a send (recipient, content, session,
timestamp) or a receive (agent, session, limit). -/
inductive Op where
  | send : String → String → String → String → Op
  | recv : String → String → Int → Op
deriving DecidableEq, Repr

/-- Whether a tagged line is a record matching the pair — the test of
agent-bridge.py line 94 lifted to tagged lines. -/
def gIsMatch (for_agent session : String) (g : GLine) : Bool :=
  match g.line with
  | Line.record m => decide (m.«to» = some for_agent ∧ m.session = some session)
  | _ => false

/-- The result entry built from a matched tagged line, keeping its tag. -/
def gproj (g : GLine) : Nat × OutMsg :=
  (g.tag,
   match g.line with
   | Line.record m => projRec m
   | _ => ⟨"", "", ""⟩)

/-- The scan loop of `get_new_messages` on the tagged log: identical to
`scan`, with each line dragging its ghost tag along. -/
def gscan (for_agent session : String) :
    List GLine → List (Nat × OutMsg) → List GLine →
      Except RecvErr (List (Nat × OutMsg) × List GLine)
  | [], messages, new_lines => Except.ok (messages, new_lines)
  | ⟨_, Line.blank⟩ :: rest, messages, new_lines =>
      gscan for_agent session rest messages new_lines
  | ⟨t, Line.junk j⟩ :: rest, messages, new_lines =>
      gscan for_agent session rest messages (new_lines ++ [⟨t, Line.junk j⟩])
  | ⟨t, Line.record m⟩ :: rest, messages, new_lines =>
      if m.«to» = some for_agent ∧ m.session = some session then
        match m.content, m.timestamp with
        | some c, some ts =>
            gscan for_agent session rest (messages ++ [(t, ⟨"the-other-agent", c, ts⟩)]) new_lines
        | none, _ => Except.error (RecvErr.keyError "content")
        | some _, none => Except.error (RecvErr.keyError "timestamp")
      else gscan for_agent session rest messages (new_lines ++ [⟨t, Line.record m⟩])

/-- One operation of a run. A send appends a freshly tagged record (invalid
recipients append nothing, line 46); a receive replaces the log by the kept
lines and reports the tags of the entries it returned (line 111); a receive
whose scan raises leaves the log unchanged and returns nothing, and so does a
receive for an invalid agent (lines 79–80). -/
def gstep (op : Op) (st : GState) : GState × List Nat :=
  match op with
  | Op.send to_ content session timestamp =>
      if validAgent to_ then
        (⟨st.n + 1, st.glog ++ [⟨st.n, Line.record (sentRec to_ content session timestamp)⟩]⟩, [])
      else (st, [])
  | Op.recv for_agent session limit =>
      if validAgent for_agent then
        match gscan for_agent session st.glog [] [] with
        | Except.ok (messages, new_lines) =>
            (⟨st.n, new_lines⟩,
             (if messages.isEmpty then [] else pySliceLast messages limit).map Prod.fst)
        | Except.error _ => (st, [])
      else (st, [])

/-- Run a finite sequence of operations, collecting for each operation the
tags of the messages it returned (sends and failed receives return `[]`). -/
def runOps : List Op → GState → GState × List (List Nat)
  | [], st => (st, [])
  | op :: ops, st =>
      ((runOps ops (gstep op st).1).1, (gstep op st).2 :: (runOps ops (gstep op st).1).2)

/-- The ghost tags of a tagged log, in order. -/
def tagsOf (glog : List GLine) : List Nat := glog.map GLine.tag

/-- Run invariant: the tags in the log are distinct and below the fresh
counter. Holds of the empty initial state. -/
def GInv (st : GState) : Prop :=
  (tagsOf st.glog).Nodup ∧ ∀ t ∈ tagsOf st.glog, t < st.n

/-! ## Storage actions of the rewrite phase

`get_new_messages` rewrites the log with `open(COMM_FILE, "w")` followed by
`f.writelines(new_lines)` (agent-bridge.py lines 107–109). Modelling the
rewrite as its sequence of storage actions makes the crash behaviour
inspectable: a crash applies only a prefix of the actions to the file. -/

/-- A storage action on the log file: opening with mode "w" truncates it in
place; `writelines` appends the given lines to the (just truncated) file. -/
inductive FsAction where
  | openTrunc : FsAction
  | writeLines : List Line → FsAction
deriving DecidableEq, Repr

/-- The storage actions the rewrite phase of `get_new_messages` performs on
`.agent-comm/messages.jsonl` (lines 107–109): an in-place truncate followed by
one write. No temporary file and no atomic rename appears in the sequence. -/
def rewriteActions (new_lines : List Line) : List FsAction :=
  [FsAction.openTrunc, FsAction.writeLines new_lines]

/-- Effect of one storage action on the file contents. -/
def applyAction (file : List Line) : FsAction → List Line
  | FsAction.openTrunc => []
  | FsAction.writeLines ls => file ++ ls

/-- Effect of a sequence of storage actions; a crash mid-rewrite leaves the
file at `applyActions` of a proper prefix of the sequence. -/
def applyActions (acts : List FsAction) (file : List Line) : List Line :=
  acts.foldl applyAction file

/-! ## Interleaved processes

`send_message` and `get_new_messages` run in independent host processes with
no lock around the log file. `get_new_messages` reads the whole log in one
`open(..., "r")` pass and later rewrites it in a second `open(..., "w")`
(lines 88 and 108), so another process can append between the two. The
interleaving is modelled at that granularity: a send is one atomic append, a
receive is a read step (computing `new_lines` into process memory) followed by
a write step (replacing the file with the remembered `new_lines`). -/

/-- An atomic step of one of the concurrent processes. -/
inductive MicroOp where
  | sendStep : String → String → String → String → MicroOp
  | recvRead : String → String → MicroOp
  | recvWrite : MicroOp
deriving DecidableEq, Repr

/-- Shared-file state: the log file plus the receiving process's memory (the
`new_lines` it computed at its read step, if it has read and not yet
written). -/
def microStep (st : List Line × Option (List Line)) : MicroOp → List Line × Option (List Line)
  | MicroOp.sendStep to_ content session timestamp =>
      ((send_message to_ content session timestamp st.1).2, st.2)
  | MicroOp.recvRead for_agent session =>
      if validAgent for_agent then
        match scan for_agent session st.1 [] [] with
        | Except.ok (_, new_lines) => (st.1, some new_lines)
        | Except.error _ => (st.1, none)
      else (st.1, none)
  | MicroOp.recvWrite =>
      match st.2 with
      | some new_lines => (new_lines, none)
      | none => (st.1, none)

/-- Run an interleaving schedule of atomic steps. -/
def microRun (sched : List MicroOp) (st : List Line × Option (List Line)) :
    List Line × Option (List Line) :=
  sched.foldl microStep st

/-! ## Small rewriting lemmas about `matchRecs` and `keptLine` -/

theorem matchRecs_nil (a s : String) : matchRecs a s [] = [] := rfl

theorem matchRecs_cons_blank (a s : String) (rest : List Line) :
    matchRecs a s (Line.blank :: rest) = matchRecs a s rest := by
  simp [matchRecs]

theorem matchRecs_cons_junk (a s j : String) (rest : List Line) :
    matchRecs a s (Line.junk j :: rest) = matchRecs a s rest := by
  simp [matchRecs]

theorem matchRecs_cons_record_pos (a s : String) (m : Msg) (rest : List Line)
    (hm : m.«to» = some a ∧ m.session = some s) :
    matchRecs a s (Line.record m :: rest) = m :: matchRecs a s rest := by
  simp only [matchRecs, List.filterMap_cons]
  rw [if_pos hm]

theorem matchRecs_cons_record_neg (a s : String) (m : Msg) (rest : List Line)
    (hm : ¬(m.«to» = some a ∧ m.session = some s)) :
    matchRecs a s (Line.record m :: rest) = matchRecs a s rest := by
  simp only [matchRecs, List.filterMap_cons]
  rw [if_neg hm]

theorem keptLine_record_pos (a s : String) (m : Msg)
    (hm : m.«to» = some a ∧ m.session = some s) :
    keptLine a s (Line.record m) = false := by
  simp [keptLine, hm.1, hm.2]

theorem keptLine_record_neg (a s : String) (m : Msg)
    (hm : ¬(m.«to» = some a ∧ m.session = some s)) :
    keptLine a s (Line.record m) = true := by
  simp [keptLine]
  exact not_and_or.mp hm

/-! ## Characterization of the scan loop -/

/-- A successful scan returns exactly the projections of the matching records
(in log order) appended to the accumulator, and keeps exactly the lines
`keptLine` selects, in order, after the accumulated `new_lines`. -/
theorem scan_ok_char (a s : String) (L : List Line) :
    ∀ (ms M : List OutMsg) (nl K : List Line),
      scan a s L ms nl = Except.ok (M, K) →
      M = ms ++ (matchRecs a s L).map projRec ∧ K = nl ++ L.filter (keptLine a s) := by
  induction L with
  | nil =>
    intro ms M nl K h
    simp only [scan, Except.ok.injEq, Prod.mk.injEq] at h
    simp [matchRecs, h.1, h.2]
  | cons l rest ih =>
    intro ms M nl K h
    cases l with
    | blank =>
      simp only [scan] at h
      have hr := ih ms M nl K h
      simpa [matchRecs_cons_blank, List.filter_cons, keptLine] using hr
    | junk j =>
      simp only [scan] at h
      have hr := ih ms M (nl ++ [Line.junk j]) K h
      rw [matchRecs_cons_junk, List.filter_cons]
      refine ⟨hr.1, ?_⟩
      rw [hr.2]
      simp [keptLine]
    | record m =>
      simp only [scan] at h
      by_cases hm : m.«to» = some a ∧ m.session = some s
      · rw [if_pos hm] at h
        rcases hc : m.content with _ | c
        · rw [hc] at h
          cases h
        · rcases ht : m.timestamp with _ | t
          · rw [hc, ht] at h
            cases h
          · rw [hc, ht] at h
            have hr := ih (ms ++ [⟨"the-other-agent", c, t⟩]) M nl K h
            rw [matchRecs_cons_record_pos a s m rest hm, List.filter_cons,
              keptLine_record_pos a s m hm]
            constructor
            · rw [hr.1]
              simp [projRec, hc, ht]
            · simpa using hr.2
      · rw [if_neg hm] at h
        have hr := ih ms M (nl ++ [Line.record m]) K h
        rw [matchRecs_cons_record_neg a s m rest hm, List.filter_cons,
          keptLine_record_neg a s m hm]
        refine ⟨hr.1, ?_⟩
        rw [hr.2]
        simp

/-- When every matching record is projectable, the scan succeeds. -/
theorem scan_good (a s : String) (L : List Line) :
    ∀ (ms : List OutMsg) (nl : List Line),
      (∀ m ∈ matchRecs a s L, goodRec m) →
      ∃ M K, scan a s L ms nl = Except.ok (M, K) := by
  induction L with
  | nil => intro ms nl _; exact ⟨ms, nl, rfl⟩
  | cons l rest ih =>
    intro ms nl hg
    cases l with
    | blank =>
      simp only [scan]
      exact ih ms nl fun m hm => hg m (by rw [matchRecs_cons_blank]; exact hm)
    | junk j =>
      simp only [scan]
      exact ih ms (nl ++ [Line.junk j]) fun m hm =>
        hg m (by rw [matchRecs_cons_junk]; exact hm)
    | record m =>
      simp only [scan]
      by_cases hm : m.«to» = some a ∧ m.session = some s
      · rw [if_pos hm]
        have hgood : goodRec m := by
          refine hg m ?_
          rw [matchRecs_cons_record_pos a s m rest hm]
          exact List.mem_cons_self m _
        simp only [goodRec, Bool.and_eq_true, Option.isSome_iff_exists] at hgood
        obtain ⟨⟨c, hc⟩, ⟨t, ht⟩⟩ := hgood
        rw [hc, ht]
        exact ih (ms ++ [⟨"the-other-agent", c, t⟩]) nl fun x hx => by
          refine hg x ?_
          rw [matchRecs_cons_record_pos a s m rest hm]
          exact List.mem_cons_of_mem m hx
      · rw [if_neg hm]
        exact ih ms (nl ++ [Line.record m]) fun x hx => by
          refine hg x ?_
          rw [matchRecs_cons_record_neg a s m rest hm]
          exact hx

/-! ## Characterization of `get_new_messages` -/

/-- The `if messages else []` guard of line 111 is redundant: slicing the
empty list yields the empty list. -/
theorem isEmpty_guard_slice {α : Type} (xs : List α) (lim : Int) :
    (if xs.isEmpty then ([] : List α) else pySliceLast xs lim) = pySliceLast xs lim := by
  cases xs with
  | nil => simp [pySliceLast]
  | cons x xs => simp

/-- A successful receive on a valid agent returns the slice of the projected
matching records and rewrites the log to exactly the kept lines. -/
theorem get_ok_char {a s : String} {lim : Int} {L : List Line}
    {ms : List OutMsg} {L' : List Line}
    (hva : validAgent a = true)
    (h : get_new_messages a s lim L = Except.ok (ms, L')) :
    ms = pySliceLast ((matchRecs a s L).map projRec) lim ∧
    L' = L.filter (keptLine a s) := by
  simp only [get_new_messages, hva, if_true] at h
  rcases hscan : scan a s L [] [] with e | ⟨M, K⟩
  · rw [hscan] at h
    cases h
  · rw [hscan] at h
    have hchar := scan_ok_char a s L [] M [] K hscan
    simp only [List.nil_append] at hchar
    simp only [Except.ok.injEq, Prod.mk.injEq] at h
    rw [isEmpty_guard_slice] at h
    exact ⟨by rw [← h.1, hchar.1], by rw [← h.2, hchar.2]⟩

/-- When every matching record is projectable, a receive on a valid agent
succeeds and returns exactly the slice of the projected matches, rewriting
the log to the kept lines. -/
theorem get_good {a s : String} (lim : Int) {L : List Line}
    (hva : validAgent a = true)
    (hg : ∀ m ∈ matchRecs a s L, goodRec m) :
    get_new_messages a s lim L =
      Except.ok (pySliceLast ((matchRecs a s L).map projRec) lim,
                 L.filter (keptLine a s)) := by
  obtain ⟨M, K, hscan⟩ := scan_good a s L [] [] hg
  have hchar := scan_ok_char a s L [] M [] K hscan
  simp only [List.nil_append] at hchar
  simp only [get_new_messages, hva, if_true, hscan]
  rw [isEmpty_guard_slice, hchar.1, hchar.2]

/-- An errored receive never touches the log: the error is raised during the
scan, before the rewrite of lines 107–109 opens the file. -/
theorem get_error_log_unchanged {a s : String} {lim : Int} {L : List Line}
    {e : RecvErr} (h : get_new_messages a s lim L = Except.error e) :
    ∀ ms L', get_new_messages a s lim L ≠ Except.ok (ms, L') := by
  intro ms L' hok
  rw [h] at hok
  cases hok

/-! ## Arithmetic of the Python slice `xs[-limit:]` -/

theorem pySliceLast_pos {α : Type} (xs : List α) {lim : Int} (h : 0 < lim) :
    pySliceLast xs lim = xs.drop (xs.length - lim.toNat) := by
  simp [pySliceLast, h]

theorem pySliceLast_length_le {α : Type} (xs : List α) {lim : Int} (h : 0 < lim) :
    (pySliceLast xs lim).length ≤ lim.toNat := by
  rw [pySliceLast_pos xs h]
  rw [List.length_drop]
  have hlim : 1 ≤ lim.toNat := by omega
  omega

theorem pySliceLast_all {α : Type} (xs : List α) {lim : Int} (h : 0 < lim)
    (hl : xs.length ≤ lim.toNat) : pySliceLast xs lim = xs := by
  rw [pySliceLast_pos xs h]
  have : xs.length - lim.toNat = 0 := by omega
  rw [this, List.drop_zero]

/-! ## Frame lemmas about the rewritten log -/

/-- The rewritten log contains no record matching the pair that was drained. -/
theorem matchRecs_filter_kept (a s : String) (L : List Line) :
    matchRecs a s (L.filter (keptLine a s)) = [] := by
  induction L with
  | nil => rfl
  | cons l rest ih =>
    cases l with
    | blank =>
      rw [List.filter_cons]
      simpa [keptLine] using ih
    | junk j =>
      rw [List.filter_cons]
      simpa [keptLine, matchRecs_cons_junk] using ih
    | record m =>
      by_cases hm : m.«to» = some a ∧ m.session = some s
      · rw [List.filter_cons, keptLine_record_pos a s m hm]
        simpa using ih
      · rw [List.filter_cons, keptLine_record_neg a s m hm]
        simp only [if_true]
        rw [matchRecs_cons_record_neg a s m _ hm]
        exact ih

theorem matchRecs_append (a s : String) (L1 L2 : List Line) :
    matchRecs a s (L1 ++ L2) = matchRecs a s L1 ++ matchRecs a s L2 := by
  simp [matchRecs, List.filterMap_append]

/-- The record a valid send appends matches the pair it was addressed to. -/
theorem matchRecs_sent (a c s ts : String) :
    matchRecs a s [Line.record (sentRec a c s ts)] = [sentRec a c s ts] := by
  simp [matchRecs, sentRec]

/-- Unparseable lines survive the rewrite verbatim: the junk lines of the
kept lines are exactly the junk lines of the scanned log, in order. -/
theorem junkLines_filter_kept (a s : String) (L : List Line) :
    junkLines (L.filter (keptLine a s)) = junkLines L := by
  induction L with
  | nil => rfl
  | cons l rest ih =>
    cases l with
    | blank =>
      rw [List.filter_cons]
      simpa [keptLine, junkLines] using ih
    | junk j =>
      rw [List.filter_cons]
      simp only [keptLine, if_true]
      simp only [junkLines, List.filter_cons] at ih ⊢
      simpa using ih
    | record m =>
      by_cases hm : m.«to» = some a ∧ m.session = some s
      · rw [List.filter_cons, keptLine_record_pos a s m hm]
        simp only [junkLines, List.filter_cons] at ih ⊢
        simpa using ih
      · rw [List.filter_cons, keptLine_record_neg a s m hm]
        simp only [if_true]
        simp only [junkLines, List.filter_cons] at ih ⊢
        simpa using ih

/-- Rewriting is idempotent on the kept lines. -/
theorem filter_kept_idem (a s : String) (L : List Line) :
    (L.filter (keptLine a s)).filter (keptLine a s) = L.filter (keptLine a s) := by
  rw [List.filter_filter]
  refine List.filter_congr ?_
  intro x _
  rw [Bool.and_self]

theorem pySliceLast_nil {α : Type} (lim : Int) : pySliceLast ([] : List α) lim = [] := by
  simp [pySliceLast]

/-! ## Claims -/

/-- C4: sending to a recipient outside {"trae", "kilo", "grok"} reports the
invalid-recipient error to the caller and leaves the log completely
unchanged — no record is appended, no state is mutated. -/
theorem C4_invalid_send_rejected (x content session timestamp : String)
    (log : List Line) (h : validAgent x = false) :
    send_message x content session timestamp log = (SendResult.error, log) := by
  simp [send_message, h]

theorem C4_invalid_send_rejected_witness :
    validAgent "bob" = false ∧
    send_message "bob" "c" "default" "t1" [Line.blank] = (SendResult.error, [Line.blank]) :=
  ⟨by decide, C4_invalid_send_rejected "bob" "c" "default" "t1" [Line.blank] (by decide)⟩

/-- C9 counterexample: a receive for the invalid recipient "bob" returns the
ordinary empty success value `[]` (agent-bridge.py lines 79–80), not an error
result, contradicting the claim that receive yields an explicit error. -/
theorem C9_counterexample :
    get_new_messages "bob" "default" 15 [] = Except.ok ([], []) ∧
    (Except.ok (([] : List OutMsg), ([] : List Line)) :
        Except RecvErr (List OutMsg × List Line)) ≠
      Except.error (RecvErr.keyError "content") :=
  ⟨rfl, fun h => Except.noConfusion h⟩

/-- C9 amended: for every recipient outside the valid set, send yields an
explicit error result, while receive silently returns an empty list (leaving
the log untouched) rather than an error. -/
theorem C9_amended (x content session timestamp : String) (lim : Int)
    (log : List Line) (h : validAgent x = false) :
    (send_message x content session timestamp log).1 = SendResult.error ∧
    get_new_messages x session lim log = Except.ok ([], log) := by
  constructor
  · simp [send_message, h]
  · simp [get_new_messages, h]

theorem C9_amended_witness :
    validAgent "bob" = false ∧
    ((send_message "bob" "c" "default" "t1" []).1 = SendResult.error ∧
     get_new_messages "bob" "default" 15 [] = Except.ok ([], [])) :=
  ⟨by decide, C9_amended "bob" "c" "default" "t1" 15 [] (by decide)⟩

/-- C3 counterexample: with `limit = 0` the slice `messages[-0:]` is
`messages[0:]`, the whole list — here a receive with limit 0 and one pending
match returns one message, violating "the result contains at most limit
messages". -/
theorem C3_counterexample :
    get_new_messages "trae" "default" 0
        [Line.record (sentRec "trae" "x" "default" "t1")] =
      Except.ok ([⟨"the-other-agent", "x", "t1"⟩], []) ∧
    ¬((1 : Int) ≤ 0) :=
  ⟨rfl, by decide⟩

/-- C3 amended (restricted to `limit ≥ 1`, as the `limit = 0` slice
counterexample forces): a successful receive on a valid recipient returns at
most `limit` messages, namely the suffix of the projected matching records in
log (insertion) order — exactly the most recent `limit` of them when more
than `limit` matches exist — and removes every matching record from the log
regardless of the limit. -/
theorem C3_amended {a s : String} {lim : Int} {L : List Line}
    {ms : List OutMsg} {L' : List Line}
    (hva : validAgent a = true) (hlim : 1 ≤ lim)
    (h : get_new_messages a s lim L = Except.ok (ms, L')) :
    ms.length ≤ lim.toNat ∧
    ms = ((matchRecs a s L).map projRec).drop ((matchRecs a s L).length - lim.toNat) ∧
    (lim.toNat ≤ (matchRecs a s L).length → ms.length = lim.toNat) ∧
    matchRecs a s L' = [] := by
  obtain ⟨hms, hL'⟩ := get_ok_char hva h
  have hpos : (0 : Int) < lim := by omega
  have hdrop : ms = ((matchRecs a s L).map projRec).drop
      ((matchRecs a s L).length - lim.toNat) := by
    rw [hms, pySliceLast_pos _ hpos, List.length_map]
  refine ⟨?_, hdrop, ?_, ?_⟩
  · rw [hms]
    exact pySliceLast_length_le _ hpos
  · intro hle
    rw [hdrop, List.length_drop, List.length_map]
    omega
  · rw [hL']
    exact matchRecs_filter_kept a s L

theorem C3_amended_witness :
    validAgent "trae" = true ∧ (1 : Int) ≤ 15 ∧
    (([⟨"the-other-agent", "x", "t1"⟩] : List OutMsg).length ≤ (15 : Int).toNat ∧
     ([⟨"the-other-agent", "x", "t1"⟩] : List OutMsg) =
       ((matchRecs "trae" "default"
           [Line.record (sentRec "trae" "x" "default" "t1")]).map projRec).drop
         ((matchRecs "trae" "default"
             [Line.record (sentRec "trae" "x" "default" "t1")]).length - (15 : Int).toNat) ∧
     ((15 : Int).toNat ≤
         (matchRecs "trae" "default"
           [Line.record (sentRec "trae" "x" "default" "t1")]).length →
       ([⟨"the-other-agent", "x", "t1"⟩] : List OutMsg).length = (15 : Int).toNat) ∧
     matchRecs "trae" "default" [] = []) :=
  ⟨by decide, by decide, C3_amended (by decide) (by decide) rfl⟩

/-- C1 counterexample: on a log that already holds a pending message for
("trae", "default") with content "x", sending "x" and receiving returns two
entries with content exactly "x" — not exactly once, as the claim states for
every starting log state. -/
theorem C1_counterexample :
    get_new_messages "trae" "default" 15
        (send_message "trae" "x" "default" "t2"
          [Line.record (sentRec "trae" "x" "default" "t1")]).2 =
      Except.ok ([⟨"the-other-agent", "x", "t1"⟩, ⟨"the-other-agent", "x", "t2"⟩], []) ∧
    (([⟨"the-other-agent", "x", "t1"⟩, ⟨"the-other-agent", "x", "t2"⟩] : List OutMsg).filter
        fun o => o.content = "x").length = 2 :=
  ⟨rfl, by decide⟩

/-- C1 amended (as the duplicate-content counterexample forces): for every
valid recipient r, session s and content c, sending (r, c, s) on any log
whose pending matches are projectable and number fewer than the default limit
after the send, then receiving (r, s) with the default limit, yields a result
in which content c appears byte-for-byte exactly once more than the number of
already-pending matches carrying content c — in particular exactly once when
no pending match has content c. -/
theorem C1_amended (r c s ts : String) (L : List Line)
    (hva : validAgent r = true)
    (hg : ∀ m ∈ matchRecs r s L, goodRec m)
    (hcnt : (matchRecs r s L).length + 1 < 15) :
    ∃ ms L',
      get_new_messages r s 15 (send_message r c s ts L).2 = Except.ok (ms, L') ∧
      (ms.filter fun o => o.content = c).length =
        ((matchRecs r s L).filter fun m => m.content = some c).length + 1 := by
  have hsend : (send_message r c s ts L).2 = L ++ [Line.record (sentRec r c s ts)] := by
    simp [send_message, hva]
  have hM1 : matchRecs r s (send_message r c s ts L).2 =
      matchRecs r s L ++ [sentRec r c s ts] := by
    rw [hsend, matchRecs_append, matchRecs_sent]
  have hgsent : goodRec (sentRec r c s ts) = true := by
    simp [goodRec, sentRec]
  have hg1 : ∀ m ∈ matchRecs r s (send_message r c s ts L).2, goodRec m := by
    intro m hm
    rw [hM1] at hm
    rcases List.mem_append.mp hm with h1 | h2
    · exact hg m h1
    · rw [List.mem_singleton.mp h2]
      exact hgsent
  have hget := get_good 15 hva hg1
  have hlen : ((matchRecs r s (send_message r c s ts L).2).map projRec).length ≤
      (15 : Int).toNat := by
    rw [List.length_map, hM1, List.length_append]
    simp only [List.length_singleton]
    omega
  rw [pySliceLast_all _ (by decide) hlen] at hget
  refine ⟨_, _, hget, ?_⟩
  rw [hM1, List.map_append, List.filter_append, List.length_append]
  have htail : ((([sentRec r c s ts]).map projRec).filter
      fun o => o.content = c).length = 1 := by
    simp [projRec, sentRec]
  rw [htail]
  have hhead : (((matchRecs r s L).map projRec).filter fun o => o.content = c) =
      (((matchRecs r s L).filter fun m => m.content = some c).map projRec) := by
    rw [List.filter_map]
    refine congrArg _ (List.filter_congr ?_)
    intro m hm
    have hgood := hg m hm
    simp only [goodRec, Bool.and_eq_true, Option.isSome_iff_exists] at hgood
    obtain ⟨⟨c', hc'⟩, _⟩ := hgood
    simp [Function.comp, projRec, hc']
  rw [hhead, List.length_map]

theorem C1_amended_witness :
    validAgent "trae" = true ∧
    (∃ ms L',
      get_new_messages "trae" "default" 15
          (send_message "trae" "x" "default" "t1" []).2 = Except.ok (ms, L') ∧
      (ms.filter fun o => o.content = "x").length =
        ((matchRecs "trae" "default" ([] : List Line)).filter
            fun m => m.content = some "x").length + 1) :=
  ⟨by decide,
   C1_amended "trae" "x" "default" "t1" [] (by decide) (by simp [matchRecs]) (by decide)⟩

/-- C5 counterexample: a whitespace-only line is skipped by the scan without
being added to `new_lines` (agent-bridge.py lines 90–91), so the rewrite drops
it — the log goes from `[blank]` to `[]`, contradicting the claim that every
blank line is preserved unchanged in the rewritten log. -/
theorem C5_counterexample :
    get_new_messages "trae" "default" 15 [Line.blank] = Except.ok ([], []) ∧
    ([] : List Line) ≠ [Line.blank] :=
  ⟨rfl, by decide⟩

/-- C5 amended (as the dropped-blank-line counterexample forces): on every
receive for a valid recipient, malformed (unparseable) lines are tolerated
and preserved verbatim in the rewritten log, while blank lines are tolerated
on read but removed by the rewrite; `MalformedRecord` is never raised — any
error a receive raises originates from a parseable matching record lacking a
required field, never from a blank or malformed line. -/
theorem C5_amended (a s : String) (lim : Int) (L : List Line)
    (hva : validAgent a = true) :
    (∀ ms L', get_new_messages a s lim L = Except.ok (ms, L') →
        junkLines L' = junkLines L ∧ Line.blank ∉ L') ∧
    (∀ e, get_new_messages a s lim L = Except.error e →
        ∃ m ∈ matchRecs a s L, goodRec m = false) := by
  constructor
  · intro ms L' h
    obtain ⟨_, hL'⟩ := get_ok_char hva h
    constructor
    · rw [hL']
      exact junkLines_filter_kept a s L
    · intro hb
      rw [hL'] at hb
      have hk : keptLine a s Line.blank = true := (List.mem_filter.mp hb).2
      cases hk
  · intro e h
    by_contra hno
    push_neg at hno
    have hg : ∀ m ∈ matchRecs a s L, goodRec m := by
      intro m hm
      cases hb : goodRec m
      · exact absurd hb (hno m hm)
      · rfl
    rw [get_good lim hva hg] at h
    cases h

theorem C5_amended_witness :
    junkLines [Line.junk "oops"] = junkLines [Line.blank, Line.junk "oops"] ∧
    Line.blank ∉ [Line.junk "oops"] :=
  (C5_amended "trae" "default" 15 [Line.blank, Line.junk "oops"] (by decide)).1
    [] [Line.junk "oops"] rfl

/-- A record addressed to a different (recipient, session) pair survives the
rewrite filter. -/
theorem keptLine_of_other (a s a2 s2 : String) (m : Msg)
    (hm : m.«to» = some a2 ∧ m.session = some s2)
    (hne : ¬(a2 = a ∧ s2 = s)) :
    keptLine a s (Line.record m) = true := by
  refine keptLine_record_neg a s m ?_
  intro hmatch
  refine hne ⟨?_, ?_⟩
  · have := hm.1.symm.trans hmatch.1
    exact Option.some_inj.mp this
  · have := hm.2.symm.trans hmatch.2
    exact Option.some_inj.mp this

/-- Draining one (recipient, session) partition leaves every other partition
of the log intact. -/
theorem matchRecs_filter_other (a s a2 s2 : String) (hne : ¬(a2 = a ∧ s2 = s))
    (L : List Line) :
    matchRecs a2 s2 (L.filter (keptLine a s)) = matchRecs a2 s2 L := by
  induction L with
  | nil => rfl
  | cons l rest ih =>
    cases l with
    | blank =>
      rw [List.filter_cons]
      simpa [keptLine, matchRecs_cons_blank] using ih
    | junk j =>
      rw [List.filter_cons]
      simp only [keptLine, if_true]
      rw [matchRecs_cons_junk, matchRecs_cons_junk]
      exact ih
    | record m =>
      by_cases hm2 : m.«to» = some a2 ∧ m.session = some s2
      · rw [List.filter_cons, keptLine_of_other a s a2 s2 m hm2 hne]
        simp only [if_true]
        rw [matchRecs_cons_record_pos a2 s2 m _ hm2, matchRecs_cons_record_pos a2 s2 m rest hm2, ih]
      · rw [List.filter_cons]
        by_cases hm : m.«to» = some a ∧ m.session = some s
        · rw [keptLine_record_pos a s m hm]
          simp only [Bool.false_eq_true, if_false]
          rw [matchRecs_cons_record_neg a2 s2 m rest hm2, ih]
        · rw [keptLine_record_neg a s m hm]
          simp only [if_true]
          rw [matchRecs_cons_record_neg a2 s2 m _ hm2,
            matchRecs_cons_record_neg a2 s2 m rest hm2, ih]

/-- A record line of the log addressed to the scanned pair occurs among its
matching records. -/
theorem mem_matchRecs_of_mem (a2 s2 : String) (m : Msg) (L : List Line)
    (hmem : Line.record m ∈ L) (hm : m.«to» = some a2 ∧ m.session = some s2) :
    m ∈ matchRecs a2 s2 L := by
  refine List.mem_filterMap.mpr ⟨Line.record m, hmem, ?_⟩
  simp [hm]

/-- C6: after any successful receive for a valid pair (a, s), every
well-formed record of the log addressed to a different valid pair (a2, s2) is
written back unchanged, and remains retrievable: a later receive addressed to
(a2, s2), with a limit at least the number of pending matches of that
partition (and every record of that partition projectable), succeeds and
returns its projection. -/
theorem C6_nonmatching_preserved (a s a2 s2 : String) (lim lim2 : Int)
    (L : List Line) (m : Msg) (ms : List OutMsg) (L2 : List Line)
    (hva : validAgent a = true) (hva2 : validAgent a2 = true)
    (hm : m.«to» = some a2 ∧ m.session = some s2)
    (hne : ¬(a2 = a ∧ s2 = s))
    (hmem : Line.record m ∈ L)
    (hok : get_new_messages a s lim L = Except.ok (ms, L2))
    (hg2 : ∀ x ∈ matchRecs a2 s2 L, goodRec x)
    (hpos : 0 < lim2)
    (hlim2 : (matchRecs a2 s2 L).length ≤ lim2.toNat) :
    Line.record m ∈ L2 ∧
    ∃ ms2 L3, get_new_messages a2 s2 lim2 L2 = Except.ok (ms2, L3) ∧
      projRec m ∈ ms2 := by
  obtain ⟨_, hL2⟩ := get_ok_char hva hok
  have hkept : keptLine a s (Line.record m) = true := keptLine_of_other a s a2 s2 m hm hne
  have hmem2 : Line.record m ∈ L2 := by
    rw [hL2]
    exact List.mem_filter.mpr ⟨hmem, hkept⟩
  have hsame : matchRecs a2 s2 L2 = matchRecs a2 s2 L := by
    rw [hL2]
    exact matchRecs_filter_other a s a2 s2 hne L
  have hg2' : ∀ x ∈ matchRecs a2 s2 L2, goodRec x := by
    intro x hx
    exact hg2 x (hsame ▸ hx)
  have hget := get_good lim2 hva2 hg2'
  have hall : ((matchRecs a2 s2 L2).map projRec).length ≤ lim2.toNat := by
    rw [List.length_map, hsame]
    exact hlim2
  rw [pySliceLast_all _ hpos hall] at hget
  refine ⟨hmem2, _, _, hget, ?_⟩
  rw [hsame]
  exact List.mem_map_of_mem projRec (mem_matchRecs_of_mem a2 s2 m L hmem hm)

theorem C6_nonmatching_preserved_witness :
    validAgent "trae" = true ∧ validAgent "kilo" = true ∧
    (Line.record (sentRec "kilo" "k" "default" "t1") ∈
        [Line.record (sentRec "kilo" "k" "default" "t1")] ∧
     ∃ ms2 L3,
       get_new_messages "kilo" "default" 1
           [Line.record (sentRec "kilo" "k" "default" "t1")] = Except.ok (ms2, L3) ∧
       projRec (sentRec "kilo" "k" "default" "t1") ∈ ms2) :=
  ⟨by decide, by decide,
   C6_nonmatching_preserved "trae" "default" "kilo" "default" 15 1
     [Line.record (sentRec "kilo" "k" "default" "t1"),
      Line.record (sentRec "trae" "x" "default" "t2")]
     (sentRec "kilo" "k" "default" "t1")
     [⟨"the-other-agent", "x", "t2"⟩]
     [Line.record (sentRec "kilo" "k" "default" "t1")]
     (by decide) (by decide) (by decide) (by decide) (by decide) rfl
     (by decide) (by decide) (by decide)⟩

/-! ## The tagged scan mirrors the scan -/

/-- Characterization of the tagged scan: the returned entries are the
projections of the matching tagged lines in order, the kept lines are the
tagged lines `keptLine` selects, in order. -/
theorem gscan_ok_char (a s : String) (G : List GLine) :
    ∀ (gms M : List (Nat × OutMsg)) (gnl K : List GLine),
      gscan a s G gms gnl = Except.ok (M, K) →
      M = gms ++ (G.filter (gIsMatch a s)).map gproj ∧
      K = gnl ++ G.filter (fun g => keptLine a s g.line) := by
  induction G with
  | nil =>
    intro gms M gnl K h
    simp only [gscan, Except.ok.injEq, Prod.mk.injEq] at h
    simp [h.1, h.2]
  | cons g rest ih =>
    intro gms M gnl K h
    obtain ⟨t, l⟩ := g
    cases l with
    | blank =>
      simp only [gscan] at h
      have hr := ih gms M gnl K h
      constructor
      · rw [hr.1, List.filter_cons]
        simp [gIsMatch]
      · rw [hr.2, List.filter_cons]
        simp [keptLine]
    | junk j =>
      simp only [gscan] at h
      have hr := ih gms M (gnl ++ [⟨t, Line.junk j⟩]) K h
      constructor
      · rw [hr.1, List.filter_cons]
        simp [gIsMatch]
      · rw [hr.2, List.filter_cons]
        simp [keptLine]
    | record m =>
      simp only [gscan] at h
      by_cases hm : m.«to» = some a ∧ m.session = some s
      · rw [if_pos hm] at h
        rcases hc : m.content with _ | c
        · rw [hc] at h
          cases h
        · rcases ht : m.timestamp with _ | ts
          · rw [hc, ht] at h
            cases h
          · rw [hc, ht] at h
            have hr := ih (gms ++ [(t, ⟨"the-other-agent", c, ts⟩)]) M gnl K h
            constructor
            · rw [hr.1, List.filter_cons]
              have hmm : gIsMatch a s ⟨t, Line.record m⟩ = true := by
                simp [gIsMatch, hm]
              rw [hmm]
              simp [gproj, projRec, hc, ht]
            · rw [hr.2, List.filter_cons]
              have hk : keptLine a s (Line.record m) = false := keptLine_record_pos a s m hm
              simp [hk]
      · rw [if_neg hm] at h
        have hr := ih gms M (gnl ++ [⟨t, Line.record m⟩]) K h
        constructor
        · rw [hr.1, List.filter_cons]
          have hmm : gIsMatch a s ⟨t, Line.record m⟩ = false := by
            simp [gIsMatch, hm]
          simp [hmm]
        · rw [hr.2, List.filter_cons]
          have hk : keptLine a s (Line.record m) = true := keptLine_record_neg a s m hm
          simp [hk]

/-- The Python slice always selects a suffix, hence a sublist. -/
theorem pySliceLast_sublist {α : Type} (xs : List α) (lim : Int) :
    (pySliceLast xs lim).Sublist xs := by
  unfold pySliceLast
  by_cases h : (0 : Int) < lim
  · rw [if_pos h]
    exact List.drop_sublist _ xs
  · rw [if_neg h]
    exact List.drop_sublist _ xs

/-- A matching tagged line is not kept. -/
theorem kept_false_of_gIsMatch (a s : String) (g : GLine)
    (h : gIsMatch a s g = true) : keptLine a s g.line = false := by
  obtain ⟨t, l⟩ := g
  cases l with
  | blank => simp [gIsMatch] at h
  | junk j => simp [gIsMatch] at h
  | record m =>
    simp only [gIsMatch, decide_eq_true_eq] at h
    exact keptLine_record_pos a s m h

/-- Branch equations for `gstep`. -/
theorem gstep_send_valid (to_ c s ts : String) (st : GState)
    (hv : validAgent to_ = true) :
    gstep (Op.send to_ c s ts) st =
      (⟨st.n + 1, st.glog ++ [⟨st.n, Line.record (sentRec to_ c s ts)⟩]⟩, []) := by
  simp [gstep, hv]

theorem gstep_send_invalid (to_ c s ts : String) (st : GState)
    (hv : validAgent to_ = false) :
    gstep (Op.send to_ c s ts) st = (st, []) := by
  simp [gstep, hv]

theorem gstep_recv_invalid (a s : String) (lim : Int) (st : GState)
    (hv : validAgent a = false) :
    gstep (Op.recv a s lim) st = (st, []) := by
  simp [gstep, hv]

theorem gstep_recv_error (a s : String) (lim : Int) (st : GState) (e : RecvErr)
    (hv : validAgent a = true) (hscan : gscan a s st.glog [] [] = Except.error e) :
    gstep (Op.recv a s lim) st = (st, []) := by
  simp [gstep, hv, hscan]

theorem gstep_recv_ok (a s : String) (lim : Int) (st : GState)
    (M : List (Nat × OutMsg)) (K : List GLine)
    (hv : validAgent a = true) (hscan : gscan a s st.glog [] [] = Except.ok (M, K)) :
    gstep (Op.recv a s lim) st =
      (⟨st.n, K⟩, (pySliceLast M lim).map Prod.fst) := by
  simp only [gstep, hv, if_true, hscan]
  rw [isEmpty_guard_slice]

/-- Step facts that need no invariant: the fresh counter never decreases, a
step only returns tags present in the log before it, and every tag in the log
after a step was either already there or is the fresh tag just consumed. -/
theorem gstep_basic (op : Op) (st : GState) :
    st.n ≤ (gstep op st).1.n ∧
    (∀ t ∈ (gstep op st).2, t ∈ tagsOf st.glog) ∧
    (∀ t ∈ tagsOf (gstep op st).1.glog, t ∈ tagsOf st.glog ∨ t = st.n) := by
  cases op with
  | send to_ c s ts =>
    rcases hv : validAgent to_ with _ | _
    · rw [gstep_send_invalid to_ c s ts st hv]
      exact ⟨le_rfl, fun t ht => absurd ht (List.not_mem_nil t), fun t ht => Or.inl ht⟩
    · rw [gstep_send_valid to_ c s ts st hv]
      refine ⟨Nat.le_succ _, fun t ht => absurd ht (List.not_mem_nil t), ?_⟩
      intro t ht
      have ht' : t ∈ tagsOf st.glog ++ [st.n] := by
        simpa [tagsOf] using ht
      rcases List.mem_append.mp ht' with h | h
      · exact Or.inl h
      · exact Or.inr (List.mem_singleton.mp h)
  | recv a s lim =>
    rcases hv : validAgent a with _ | _
    · rw [gstep_recv_invalid a s lim st hv]
      exact ⟨le_rfl, fun t ht => absurd ht (List.not_mem_nil t), fun t ht => Or.inl ht⟩
    · rcases hscan : gscan a s st.glog [] [] with e | ⟨M, K⟩
      · rw [gstep_recv_error a s lim st e hv hscan]
        exact ⟨le_rfl, fun t ht => absurd ht (List.not_mem_nil t), fun t ht => Or.inl ht⟩
      · rw [gstep_recv_ok a s lim st M K hv hscan]
        obtain ⟨hM, hK⟩ := gscan_ok_char a s st.glog [] M [] K hscan
        simp only [List.nil_append] at hM hK
        refine ⟨le_rfl, ?_, ?_⟩
        · intro t ht
          obtain ⟨p, hp, rfl⟩ := List.mem_map.mp ht
          have hpM : p ∈ M := (pySliceLast_sublist M lim).subset hp
          rw [hM] at hpM
          obtain ⟨g, hg, rfl⟩ := List.mem_map.mp hpM
          have hgmem : g ∈ st.glog := (List.filter_sublist st.glog).subset hg
          exact List.mem_map_of_mem GLine.tag hgmem
        · intro t ht
          have ht' : t ∈ tagsOf K := ht
          rw [hK] at ht'
          obtain ⟨g, hg, rfl⟩ := List.mem_map.mp ht'
          have hgmem : g ∈ st.glog := (List.filter_sublist st.glog).subset hg
          exact Or.inl (List.mem_map_of_mem GLine.tag hgmem)

/-- Step facts under the invariant: the invariant is preserved, the returned
tags are distinct, and none of them survives in the log after the step. -/
theorem gstep_inv (op : Op) (st : GState) (hInv : GInv st) :
    GInv (gstep op st).1 ∧
    (gstep op st).2.Nodup ∧
    (∀ t ∈ (gstep op st).2, t ∉ tagsOf (gstep op st).1.glog) := by
  cases op with
  | send to_ c s ts =>
    rcases hv : validAgent to_ with _ | _
    · rw [gstep_send_invalid to_ c s ts st hv]
      exact ⟨hInv, List.nodup_nil, fun t ht => absurd ht (List.not_mem_nil t)⟩
    · rw [gstep_send_valid to_ c s ts st hv]
      refine ⟨⟨?_, ?_⟩, List.nodup_nil, fun t ht => absurd ht (List.not_mem_nil t)⟩
      · show (tagsOf (st.glog ++ [⟨st.n, Line.record (sentRec to_ c s ts)⟩])).Nodup
        have hte : tagsOf (st.glog ++ [⟨st.n, Line.record (sentRec to_ c s ts)⟩]) =
            tagsOf st.glog ++ [st.n] := by
          simp [tagsOf]
        rw [hte, List.nodup_append]
        refine ⟨hInv.1, List.nodup_singleton _, ?_⟩
        intro t ht ht'
        have hlt := hInv.2 t ht
        have : t = st.n := List.mem_singleton.mp ht'
        omega
      · intro t ht
        have ht' : t ∈ tagsOf st.glog ++ [st.n] := by
          simpa [tagsOf] using ht
        show t < st.n + 1
        rcases List.mem_append.mp ht' with h | h
        · have := hInv.2 t h
          omega
        · have : t = st.n := List.mem_singleton.mp h
          omega
  | recv a s lim =>
    rcases hv : validAgent a with _ | _
    · rw [gstep_recv_invalid a s lim st hv]
      exact ⟨hInv, List.nodup_nil, fun t ht => absurd ht (List.not_mem_nil t)⟩
    · rcases hscan : gscan a s st.glog [] [] with e | ⟨M, K⟩
      · rw [gstep_recv_error a s lim st e hv hscan]
        exact ⟨hInv, List.nodup_nil, fun t ht => absurd ht (List.not_mem_nil t)⟩
      · rw [gstep_recv_ok a s lim st M K hv hscan]
        obtain ⟨hM, hK⟩ := gscan_ok_char a s st.glog [] M [] K hscan
        simp only [List.nil_append] at hM hK
        have hsubK : (tagsOf K).Sublist (tagsOf st.glog) := by
          rw [hK]
          exact List.Sublist.map GLine.tag (List.filter_sublist st.glog)
        have hMfst : M.map Prod.fst =
            (st.glog.filter (gIsMatch a s)).map GLine.tag := by
          rw [hM, List.map_map]
          rfl
        have hsubRet : ((pySliceLast M lim).map Prod.fst).Sublist (tagsOf st.glog) := by
          refine List.Sublist.trans (List.Sublist.map Prod.fst (pySliceLast_sublist M lim)) ?_
          rw [hMfst]
          exact List.Sublist.map GLine.tag (List.filter_sublist st.glog)
        refine ⟨⟨hInv.1.sublist hsubK, fun t ht => hInv.2 t (hsubK.subset ht)⟩,
          hInv.1.sublist hsubRet, ?_⟩
        intro t ht htK
        obtain ⟨p, hp, rfl⟩ := List.mem_map.mp ht
        have hpM : p ∈ M := (pySliceLast_sublist M lim).subset hp
        rw [hM] at hpM
        obtain ⟨g, hg, rfl⟩ := List.mem_map.mp hpM
        have hgMatch : gIsMatch a s g = true := List.of_mem_filter hg
        have hgmem : g ∈ st.glog := (List.filter_sublist st.glog).subset hg
        have htK' : (gproj g).1 ∈ tagsOf K := htK
        rw [hK] at htK'
        obtain ⟨g2, hg2, htag⟩ := List.mem_map.mp htK'
        have hg2kept : keptLine a s g2.line = true := by
          have := List.of_mem_filter hg2
          simpa using this
        have hg2mem : g2 ∈ st.glog := (List.filter_sublist st.glog).subset hg2
        have hgg2 : g2 = g := List.inj_on_of_nodup_map hInv.1 hg2mem hgmem htag
        rw [hgg2] at hg2kept
        rw [kept_false_of_gIsMatch a s g hgMatch] at hg2kept
        cases hg2kept

/-- Every tag a run ever returns was either in the starting log or was minted
during the run (is at least the starting fresh counter). -/
theorem runOps_ret_sources (ops : List Op) :
    ∀ (st : GState), ∀ l ∈ (runOps ops st).2, ∀ t ∈ l,
      t ∈ tagsOf st.glog ∨ st.n ≤ t := by
  induction ops with
  | nil =>
    intro st l hl
    simp only [runOps] at hl
    exact absurd hl (List.not_mem_nil l)
  | cons op ops ih =>
    intro st l hl t ht
    simp only [runOps] at hl
    rcases List.mem_cons.mp hl with rfl | hl2
    · exact Or.inl ((gstep_basic op st).2.1 t ht)
    · rcases ih (gstep op st).1 l hl2 t ht with hin | hge
      · rcases (gstep_basic op st).2.2 t hin with hin2 | rfl
        · exact Or.inl hin2
        · exact Or.inr le_rfl
      · exact Or.inr (le_trans (gstep_basic op st).1 hge)

/-- At-most-once delivery along any run from an invariant state: the tag
lists returned by the receives of the run are pairwise disjoint and each is
duplicate-free. -/
theorem runOps_at_most_once (ops : List Op) :
    ∀ (st : GState), GInv st →
      ((runOps ops st).2.Pairwise fun l1 l2 => ∀ t ∈ l1, t ∉ l2) ∧
      ∀ l ∈ (runOps ops st).2, l.Nodup := by
  induction ops with
  | nil =>
    intro st _
    simp only [runOps]
    exact ⟨List.Pairwise.nil, fun l hl => absurd hl (List.not_mem_nil l)⟩
  | cons op ops ih =>
    intro st hInv
    obtain ⟨hInv2, hndRet, hgone⟩ := gstep_inv op st hInv
    obtain ⟨hpw, hnd⟩ := ih (gstep op st).1 hInv2
    constructor
    · simp only [runOps]
      refine List.Pairwise.cons ?_ hpw
      intro l hl t ht htl
      rcases runOps_ret_sources ops (gstep op st).1 l hl t htl with hin | hge
      · exact hgone t ht hin
      · have h1 : t ∈ tagsOf st.glog := (gstep_basic op st).2.1 t ht
        have h2 : t < st.n := hInv.2 t h1
        have h3 : st.n ≤ (gstep op st).1.n := (gstep_basic op st).1
        omega
    · intro l hl
      simp only [runOps] at hl
      rcases List.mem_cons.mp hl with rfl | hl2
      · exact hndRet
      · exact hnd l hl2

/-- C2: at-most-once delivery. Over every finite sequence of send and receive
operations starting from the empty log, the (ghost-tagged) messages returned
by the receives of the run are pairwise disjoint — a message returned by one
receive is never returned by any later receive — and each receive returns a
message at most once. Moreover a receive removes every matched record: an
immediately repeated receive for the same (recipient, session) on the
rewritten log returns the empty result and leaves the log as it was. -/
theorem C2_at_most_once (ops : List Op) {a s : String} {lim lim2 : Int}
    {L : List Line} {ms : List OutMsg} {L2 : List Line}
    (hva : validAgent a = true)
    (hok : get_new_messages a s lim L = Except.ok (ms, L2)) :
    ((runOps ops ⟨0, []⟩).2.Pairwise fun l1 l2 => ∀ t ∈ l1, t ∉ l2) ∧
    (∀ l ∈ (runOps ops ⟨0, []⟩).2, l.Nodup) ∧
    matchRecs a s L2 = [] ∧
    get_new_messages a s lim2 L2 = Except.ok ([], L2) := by
  have hInv0 : GInv ⟨0, []⟩ := ⟨List.nodup_nil, fun t ht => absurd ht (List.not_mem_nil t)⟩
  obtain ⟨hpw, hnd⟩ := runOps_at_most_once ops ⟨0, []⟩ hInv0
  obtain ⟨_, hL2⟩ := get_ok_char hva hok
  have hdrain : matchRecs a s L2 = [] := by
    rw [hL2]
    exact matchRecs_filter_kept a s L
  refine ⟨hpw, hnd, hdrain, ?_⟩
  have hg : ∀ m ∈ matchRecs a s L2, goodRec m := by
    rw [hdrain]
    intro m hm
    exact absurd hm (List.not_mem_nil m)
  have hget := get_good lim2 hva hg
  rw [hdrain] at hget
  simp only [List.map_nil] at hget
  rw [pySliceLast_nil] at hget
  have hidem : L2.filter (keptLine a s) = L2 := by
    rw [hL2]
    exact filter_kept_idem a s L
  rw [hidem] at hget
  exact hget

theorem C2_at_most_once_witness :
    ((runOps [Op.send "trae" "x" "default" "t1", Op.recv "trae" "default" 15]
        ⟨0, []⟩).2.Pairwise fun l1 l2 => ∀ t ∈ l1, t ∉ l2) ∧
    (∀ l ∈ (runOps [Op.send "trae" "x" "default" "t1", Op.recv "trae" "default" 15]
        ⟨0, []⟩).2, l.Nodup) ∧
    matchRecs "trae" "default" [] = [] ∧
    get_new_messages "trae" "default" 15 [] = Except.ok ([], []) :=
  C2_at_most_once
    [Op.send "trae" "x" "default" "t1", Op.recv "trae" "default" 15]
    (by decide)
    (rfl :
      get_new_messages "trae" "default" 15 [Line.record (sentRec "trae" "x" "default" "t1")] =
        Except.ok ([⟨"the-other-agent", "x", "t1"⟩], []))

/-- C7 evidence (code bug): the rewrite of `get_new_messages` is an in-place
truncate-and-write, not a write-to-temporary-then-atomic-replace. On the log
holding one message for "kilo", an unrelated receive for "trae" keeps the
message (pre-state = post-state = that one line), yet a crash after the
`open(COMM_FILE, "w")` truncation and before `writelines` leaves the log
empty — neither the pre-rewrite nor the post-rewrite state. -/
theorem C7_truncate_crash :
    get_new_messages "trae" "default" 15
        [Line.record (sentRec "kilo" "k" "default" "t1")] =
      Except.ok ([], [Line.record (sentRec "kilo" "k" "default" "t1")]) ∧
    applyActions (rewriteActions [Line.record (sentRec "kilo" "k" "default" "t1")])
        [Line.record (sentRec "kilo" "k" "default" "t1")] =
      [Line.record (sentRec "kilo" "k" "default" "t1")] ∧
    applyActions
        ((rewriteActions [Line.record (sentRec "kilo" "k" "default" "t1")]).take 1)
        [Line.record (sentRec "kilo" "k" "default" "t1")] = [] ∧
    ([] : List Line) ≠ [Line.record (sentRec "kilo" "k" "default" "t1")] :=
  ⟨rfl, rfl, rfl, by decide⟩

/-- C8 evidence (code bug): a parseable record whose `to` and `session` match
the call but which lacks a `content` field makes `msg["content"]` raise a
`KeyError` that is not caught (only `json.JSONDecodeError` is), so a generic
exception crosses the tool boundary instead of a taxonomy error. -/
theorem C8_keyerror_escapes :
    get_new_messages "trae" "default" 15
        [Line.record ⟨none, none, some "trae", some "default", none⟩] =
      Except.error (RecvErr.keyError "content") :=
  rfl

/-- C10 evidence (code bug): no mutual exclusion protects the log. In the
interleaving where a receive for "trae" reads the log, then a send to "kilo"
appends its record, then the receive writes back its remembered `new_lines`,
the final log is empty: the kilo message was present in the file after the
send but is destroyed by the rewrite, delivered to no one. -/
theorem C10_lost_send :
    (microStep (microStep ([Line.record (sentRec "trae" "x" "default" "t1")], none)
          (MicroOp.recvRead "trae" "default"))
        (MicroOp.sendStep "kilo" "hello" "default" "t2")).1 =
      [Line.record (sentRec "trae" "x" "default" "t1"),
       Line.record (sentRec "kilo" "hello" "default" "t2")] ∧
    (microRun [MicroOp.recvRead "trae" "default",
               MicroOp.sendStep "kilo" "hello" "default" "t2",
               MicroOp.recvWrite]
        ([Line.record (sentRec "trae" "x" "default" "t1")], none)).1 = [] :=
  ⟨rfl, rfl⟩
